import Mathlib

/-!
Verification development for the "retrieve and rerank" notebook
(supporting-blog-content/evaluating-search-relevance-part-1/retrieve-and-rerank.ipynb).

The notebook's Python dictionaries are embedded as association lists
(`List (String × β)`) with Python's dict semantics: assignment `d[k] = v`
replaces the value in place if the key is present (keeping its position)
and appends the entry at the end otherwise; `dict.update` performs one such
assignment per entry of its argument; lookup returns the (unique) entry.
External services (Elasticsearch, the cross-encoder model, pytrec_eval)
are modelled as explicit function parameters or, where noted, from the spec.
-/

/-- A Python dict with string keys, as an association list in key-insertion order. -/
abbrev Dict (β : Type) : Type := List (String × β)

/-- The keys of a dict, in order. -/
def dictKeys {β : Type} (d : Dict β) : List String :=
  d.map Prod.fst

/-- Python dict lookup: the value at key `k`, if present. -/
def pyGet {β : Type} : Dict β → String → Option β
  | [], _ => none
  | p :: rest, k => if p.1 = k then some p.2 else pyGet rest k

/-- Python dict assignment `d[k] = v`: replace in place if `k` is present,
append at the end otherwise. -/
def pyInsert {β : Type} (k : String) (v : β) : Dict β → Dict β
  | [] => [(k, v)]
  | p :: rest => if p.1 = k then (k, v) :: rest else p :: pyInsert k v rest

/-- Python `d.update(l)` (and dict-comprehension accumulation): one assignment
per entry of `l`, left to right. -/
def pyUpdate {β : Type} (d : Dict β) (l : List (String × β)) : Dict β :=
  l.foldl (fun acc p => pyInsert p.1 p.2 acc) d

/-- A Python dict built from a list of key-value pairs (dict comprehension):
later occurrences of a key override earlier ones. -/
def pyDict {β : Type} (l : List (String × β)) : Dict β :=
  pyUpdate [] l

/-- Left-biased choice on `Option`, used to state how `update` layers dicts. -/
def optOr {β : Type} : Option β → Option β → Option β
  | some v, _ => some v
  | none, o => o

/-- A query row of the HF `queries` dataset: fields `_id` and `text`. -/
structure Query where
  _id : String
  text : String
deriving DecidableEq

/-- The `multi_match` clause built by `generate_request`; `match_type` embeds the
JSON key `"type"`. BM25 scores are idealised as rationals. -/
structure MultiMatch where
  query : String
  match_type : String
  fields : List String
  tie_breaker : ℚ
deriving DecidableEq

/-- The body of one msearch search, as built by `generate_request`;
`source_flag` embeds the JSON key `"_source"`. -/
structure ESRequest where
  source_flag : Bool
  query : MultiMatch
  size : ℕ
deriving DecidableEq

/-- One response of the msearch API: the list of hits, each a document id with
its BM25 score (embedding `resp["hits"]["hits"]` with `_id` and `_score`). -/
structure ESResponse where
  hits : List (String × ℚ)
deriving DecidableEq

/-- `generate_request` from `retrieve`: the request body for the ES requests. -/
def generate_request (size : ℕ) (query_text : String) : ESRequest :=
  { source_flag := false
    query := { query := query_text
               match_type := "best_fields"
               fields := ["title", "txt"]
               tie_breaker := 1/2 }
    size := size }

/-- The Elasticsearch msearch endpoint, an external service: it receives the
interleaved list of header lines (`{}`, embedded as `none`) and search bodies
(`some` a request) that `retrieve` builds, and either returns one response per
search or fails with an exception (the `Except.error` case). The `index` and
`search_type` kwargs are fixed at every call site and are absorbed into the
function. -/
abbrev Backend : Type := List (Option ESRequest) → Except String (List ESResponse)

/-- `retrieve_batch` from `retrieve`: get docs for a mini-batch of requests.
On success it zips the query ids of the batch with the responses and builds
one score map per query; any exception is caught (and printed, a side effect
outside the model), leaving `batch_dict` empty. -/
def retrieve_batch (backend : Backend) (query_ids : List String)
    (es_requests : List (Option ESRequest)) : Dict (Dict ℚ) :=
  match backend es_requests with
  | Except.error _ => []
  | Except.ok resps =>
      pyDict ((query_ids.zip resps).map (fun p => (p.1, pyDict p.2.hits)))

/-- The batching loop of `retrieve`, with its mutable state (`qids`, `requests`,
`es_responses`) passed explicitly. The extra `trace` component records, in
order, the argument of every msearch call made, so that theorems can speak
about which requests were issued. -/
def retrieve_loop (backend : Backend) (size batch_size : ℕ) :
    List Query → List String → List (Option ESRequest) → Dict (Dict ℚ) →
    List (List (Option ESRequest)) →
    Dict (Dict ℚ) × List (List (Option ESRequest))
  | [], qids, requests, acc, trace =>
      if 0 < qids.length then
        (pyUpdate acc (retrieve_batch backend qids requests), trace ++ [requests])
      else (acc, trace)
  | q :: rest, qids, requests, acc, trace =>
      if (qids ++ [q._id]).length = batch_size then
        retrieve_loop backend size batch_size rest [] []
          (pyUpdate acc (retrieve_batch backend (qids ++ [q._id])
            (requests ++ [none, some (generate_request size q.text)])))
          (trace ++ [requests ++ [none, some (generate_request size q.text)]])
      else
        retrieve_loop backend size batch_size rest (qids ++ [q._id])
          (requests ++ [none, some (generate_request size q.text)]) acc trace

/-- `retrieve`: batched BM25 retrieval; returns the nested dictionary mapping
each query id to its (doc id, BM25 score) map. -/
def retrieve (queries : List Query) (backend : Backend) (size batch_size : ℕ) :
    Dict (Dict ℚ) :=
  (retrieve_loop backend size batch_size queries [] [] [] []).1

/-- The sequence of msearch calls that `retrieve` performs, in order. -/
def retrieve_trace (queries : List Query) (backend : Backend)
    (size batch_size : ℕ) : List (List (Option ESRequest)) :=
  (retrieve_loop backend size batch_size queries [] [] [] []).2

/-- The interleaved header/body request list that `retrieve` accumulates for a
batch of queries: a `{}` header line followed by a `generate_request` body,
per query. -/
def batchRequests (size : ℕ) (qs : List Query) : List (Option ESRequest) :=
  qs.bind (fun q => [none, some (generate_request size q.text)])

/-- The groups of consecutive queries that `retrieve` sends as one msearch call:
full groups of `batch_size`, then the leftover partial group. A zero
`batch_size` never triggers the in-loop flush, leaving a single leftover group. -/
def chunksOf {α : Type} (n : ℕ) : List α → List (List α)
  | [] => []
  | a :: rest =>
      if _hn : n = 0 then [a :: rest]
      else (a :: rest).take n :: chunksOf n ((a :: rest).drop n)
termination_by l => l.length
decreasing_by
  simp only [List.length_drop, List.length_cons]
  omega

/-- One step of folding batch results into `es_responses` via `dict.update`. -/
def batchStep (backend : Backend) (size : ℕ) (acc : Dict (Dict ℚ))
    (b : List Query) : Dict (Dict ℚ) :=
  pyUpdate acc (retrieve_batch backend (b.map Query._id) (batchRequests size b))

/-- A row of the HF corpus dataset: fields `_id`, `title`, `text`. -/
structure CorpusRow where
  _id : String
  title : String
  text : String
deriving DecidableEq

/-- The helper dict `queries_dict = {q["_id"]: q["text"] for q in queries}`. -/
def queries_dict (queries : List Query) : Dict String :=
  pyDict (queries.map (fun q => (q._id, q.text)))

/-- The helper dict built before reranking: maps each document id to the string
the reranker scores, the title and text joined by a single space
(the dict comprehension with value the f-string of `doc` title and text). -/
def corpus_dict (corpus : List CorpusRow) : Dict String :=
  pyDict (corpus.map (fun d => (d._id, d.title ++ " " ++ d.text)))

/-- The list comprehension `[corpus_dict[doc_id] for doc_id in doc_ids]`:
each lookup raises a `KeyError` (the `Except.error` case) if the key is
missing, otherwise the values are collected in order. -/
def lookupAll {β : Type} (d : Dict β) : List String → Except String (List β)
  | [] => Except.ok []
  | k :: ks =>
      match pyGet d k with
      | none => Except.error "KeyError"
      | some v =>
          match lookupAll d ks with
          | Except.error e => Except.error e
          | Except.ok vs => Except.ok (v :: vs)

/-- The reranking loop over `bm25_responses.items()`, with the dict
`results_after_reranking` accumulated explicitly. The cross-encoder is an
external pretrained model, passed in as the scoring function `model`:
`model.predict` on a list of (query, document) pairs returns one score per
pair, so it is embedded as a map of the scoring function over the pairs. -/
def rerank_loop (model : String → String → ℚ) (qdict cdict : Dict String) :
    List (String × Dict ℚ) → Dict (Dict ℚ) → Except String (Dict (Dict ℚ))
  | [], acc => Except.ok acc
  | (qid, bm25_res) :: rest, acc =>
      match pyGet qdict qid with
      | none => Except.error "KeyError"
      | some query_text =>
          if (dictKeys bm25_res).length = 0 then
            rerank_loop model qdict cdict rest (pyInsert qid [] acc)
          else
            match lookupAll cdict (dictKeys bm25_res) with
            | Except.error e => Except.error e
            | Except.ok doc_texts =>
                rerank_loop model qdict cdict rest
                  (pyInsert qid
                    (pyDict ((dictKeys bm25_res).zip
                      (doc_texts.map (fun t => model query_text t)))) acc)

/-- `results_after_reranking`: rescoring of every query's BM25 candidate list
with the reranking model. -/
def results_after_reranking (model : String → String → ℚ)
    (qdict cdict : Dict String) (bm25_responses : Dict (Dict ℚ)) :
    Except String (Dict (Dict ℚ)) :=
  rerank_loop model qdict cdict bm25_responses []

/-- The documents written by `index_corpus`: the fields `title` and `txt` of
the index mapping. -/
structure ESDoc where
  title : String
  txt : String
deriving DecidableEq

/-- The observable state of the Elasticsearch index, an external system
modelled by its API contract: `docs` holds the stored documents keyed by
`_id` (a bulk `index` op is an upsert), and `visible` is what searches can
see, which lags behind `docs` until a refresh. -/
structure ESIndex where
  docs : Dict ESDoc
  visible : Dict ESDoc
deriving DecidableEq

/-- `get_iterable` from `index_corpus`: one `index` bulk action per corpus
row, carrying the row id, title and text. -/
def get_iterable (corpus : List CorpusRow) : List (String × ESDoc) :=
  corpus.map (fun d => (d._id, { title := d.title, txt := d.text }))

/-- The bulk helper: applies the `index` (upsert) actions in order. -/
def bulk_index (idx : ESIndex) (actions : List (String × ESDoc)) : ESIndex :=
  { idx with docs := pyUpdate idx.docs actions }

/-- `indices.refresh`: makes every stored document visible to searches. -/
def refresh_index (idx : ESIndex) : ESIndex :=
  { idx with visible := idx.docs }

/-- `index_corpus`: bulk-index all corpus rows, then refresh synchronously. -/
def index_corpus (corpus : List CorpusRow) (idx : ESIndex) : ESIndex :=
  refresh_index (bulk_index idx (get_iterable corpus))

/-- The number of documents a search can see in the index. -/
def doc_count (idx : ESIndex) : ℕ :=
  idx.visible.length

/-- The filter in `download_queries_and_qrels`:
`.filter(lambda r: r["_id"] in qrels)` keeps only queries whose id is a key
of the qrels dict. -/
def filtered_queries (queries : List Query) (qrels : Dict (Dict ℕ)) : List Query :=
  queries.filter (fun q => decide (q._id ∈ dictKeys qrels))

/-- The `defaultdict(list)` append `eval_scores[metric].append(metric_score)`:
extend the list at the key in place, or create a one-element list at a fresh
key (appended at the end, as Python dicts are insertion ordered). -/
def pyAppend (k : String) (v : ℚ) : Dict (List ℚ) → Dict (List ℚ)
  | [] => [(k, [v])]
  | p :: rest => if p.1 = k then (p.1, p.2 ++ [v]) :: rest else p :: pyAppend k v rest

/-- The inner loop of the aggregation: fold one query's metric dict into the
accumulator. -/
def add_vals (vals : List (String × ℚ)) (acc : Dict (List ℚ)) : Dict (List ℚ) :=
  vals.foldl (fun a p => pyAppend p.1 p.2 a) acc

/-- `eval_scores`: the aggregation loop over `eval_per_query.items()`, which
collects, per metric name, the list of per-query metric scores. -/
def eval_scores (eval_per_query : List (String × List (String × ℚ))) :
    Dict (List ℚ) :=
  eval_per_query.foldl (fun acc qv => add_vals qv.2 acc) []

/-- `post_reranking_eval_scores`: the identical aggregation loop, run on the
post-reranking per-query scores. -/
def post_reranking_eval_scores
    (eval_per_query : List (String × List (String × ℚ))) : Dict (List ℚ) :=
  eval_per_query.foldl (fun acc qv => add_vals qv.2 acc) []

/-- The per-query scores recorded for metric `m` by one query's metric dict,
in iteration order. -/
def collectVals (m : String) : List (String × ℚ) → List ℚ
  | [] => []
  | p :: rest => if p.1 = m then p.2 :: collectVals m rest else collectVals m rest

/-- All per-query scores for metric `m`, across the queries in order. -/
def collect (m : String) : List (String × List (String × ℚ)) → List ℚ
  | [] => []
  | qv :: rest => collectVals m qv.2 ++ collect m rest

/-- `np.mean` on a list of scores, idealised over the rationals. -/
def mean (l : List ℚ) : ℚ :=
  l.sum / l.length

/-- Modelled from the spec: the candidate ordering pytrec_eval derives from a
score map, "sorting on score descending" (stable, as in the source's
`sorted(..., key=lambda x: x[1], reverse=True)` usage). -/
def sort_by_score (run_q : Dict ℚ) : Dict ℚ :=
  List.insertionSort (fun a b => b.2 ≤ a.2) run_q

/-- The discounted sum of a relevance-gain list, the head weighted by
`disc i` at 0-based rank `i`. -/
def discSum (disc : ℕ → ℚ) : ℕ → List ℕ → ℚ
  | _, [] => 0
  | i, r :: rest => (r : ℚ) * disc i + discSum disc (i + 1) rest

/-- Modelled from the spec: `pytrec_eval.RelevanceEvaluator` is an external
library, so nDCG@10 is modelled from the spec's glossary ("normalized
discounted cumulative gain computed over the top 10 results"): the document
list sorted by score descending is cut at rank 10, graded by the judgments
(unjudged documents gain 0), and discount-summed; this DCG is divided by the
ideal DCG of the judgment grades themselves sorted descending and cut at 10
(0 when the ideal DCG is 0). The per-rank discount (1 over log2 of rank + 1,
which is 1 at the first rank) is irrational, so it is abstracted as the
parameter `disc`. -/
def ndcg_cut_10 (disc : ℕ → ℚ) (qrels_q : Dict ℕ) (run_q : Dict ℚ) : ℚ :=
  let rels := (sort_by_score run_q).map (fun p => (pyGet qrels_q p.1).getD 0)
  let dcg := discSum disc 0 (rels.take 10)
  let ideal := List.insertionSort (fun a b => b ≤ a) (qrels_q.map Prod.snd)
  let idcg := discSum disc 0 (ideal.take 10)
  if idcg = 0 then 0 else dcg / idcg

/-- Modelled from the spec: `evaluator.evaluate` returns one metric dict per
query of the ranking result, here with the single requested metric
`ndcg_cut_10`, graded against that query's judgments. -/
def evaluate (disc : ℕ → ℚ) (qrels : Dict (Dict ℕ)) (run : Dict (Dict ℚ)) :
    Dict (Dict ℚ) :=
  run.map (fun p =>
    (p.1, [("ndcg_cut_10", ndcg_cut_10 disc ((pyGet qrels p.1).getD []) p.2)]))

/-- A concrete msearch backend for witnesses: fails with "boom" exactly on the
batch request of the single query (id `q1`, text `a`), and answers every other
call with one fixed single-hit response. -/
def failing_backend : Backend := fun reqs =>
  if reqs = batchRequests 7 [{ _id := "q1", text := "a" }] then
    Except.error "boom"
  else
    Except.ok [{ hits := [("d1", (3 : ℚ))] }]

theorem optOr_none_right {β : Type} (o : Option β) : optOr o none = o := by
  cases o <;> rfl

theorem optOr_none_left {β : Type} (o : Option β) : optOr none o = o := rfl

theorem dictKeys_nil {β : Type} : dictKeys ([] : Dict β) = [] := rfl

theorem dictKeys_cons {β : Type} (p : String × β) (d : Dict β) :
    dictKeys (p :: d) = p.1 :: dictKeys d := rfl

theorem dictKeys_pyInsert {β : Type} (k : String) (v : β) (d : Dict β) :
    dictKeys (pyInsert k v d) =
      if k ∈ dictKeys d then dictKeys d else dictKeys d ++ [k] := by
  induction d with
  | nil => simp [pyInsert, dictKeys]
  | cons p rest ih =>
    by_cases h : p.1 = k
    · simp [pyInsert, h, dictKeys_cons]
    · have hkp : ¬ k = p.1 := fun he => h he.symm
      have hk : (k ∈ dictKeys (p :: rest)) = (k ∈ dictKeys rest) := by
        simp [dictKeys_cons, hkp]
      by_cases hmem : k ∈ dictKeys rest
      · simp [pyInsert, h, dictKeys_cons, ih, hmem, hk, hkp]
      · simp [pyInsert, h, dictKeys_cons, ih, hmem, hk, hkp]

theorem nodup_dictKeys_pyInsert {β : Type} (k : String) (v : β) (d : Dict β)
    (h : (dictKeys d).Nodup) : (dictKeys (pyInsert k v d)).Nodup := by
  rw [dictKeys_pyInsert]
  by_cases hm : k ∈ dictKeys d
  · simpa [hm] using h
  · simp only [hm, if_false]
    exact List.Nodup.append h (List.nodup_singleton k) (by
      intro a ha hb
      simp at hb
      exact hm (hb ▸ ha))

theorem toFinset_dictKeys_pyInsert {β : Type} (k : String) (v : β) (d : Dict β) :
    (dictKeys (pyInsert k v d)).toFinset = insert k (dictKeys d).toFinset := by
  rw [dictKeys_pyInsert]
  by_cases hm : k ∈ dictKeys d
  · simp [hm, Finset.insert_eq_self.mpr (List.mem_toFinset.mpr hm)]
  · simp [hm]
    ext a
    simp
    tauto

theorem pyGet_pyInsert {β : Type} (k : String) (v : β) (d : Dict β) (k2 : String) :
    pyGet (pyInsert k v d) k2 = if k = k2 then some v else pyGet d k2 := by
  induction d with
  | nil => simp [pyInsert, pyGet]
  | cons p rest ih =>
    by_cases h : p.1 = k
    · by_cases h2 : k = k2
      · simp [pyInsert, h, pyGet, h2]
      · have : ¬ p.1 = k2 := by rw [h]; exact h2
        simp [pyInsert, h, pyGet, h2, this]
    · by_cases h2 : p.1 = k2
      · have hkk : ¬ k = k2 := by
          intro he
          exact h (by rw [he, h2])
        have hkk2 : ¬ k2 = k := fun he => hkk he.symm
        simp [pyInsert, h, pyGet, h2, hkk, hkk2]
      · simp [pyInsert, h, pyGet, h2, ih]

theorem mem_pyInsert {β : Type} (k : String) (v : β) (d : Dict β) (x : String × β)
    (h : x ∈ pyInsert k v d) : x = (k, v) ∨ x ∈ d := by
  induction d with
  | nil => simpa [pyInsert] using h
  | cons p rest ih =>
    by_cases hp : p.1 = k
    · simp [pyInsert, hp] at h
      rcases h with h | h
      · left; simp [h]
      · right; simp [h]
    · simp [pyInsert, hp] at h
      rcases h with h | h
      · right; simp [h]
      · rcases ih h with h' | h'
        · left; exact h'
        · right; simp [h']

theorem length_pyInsert {β : Type} (k : String) (v : β) (d : Dict β) :
    (pyInsert k v d).length =
      if k ∈ dictKeys d then d.length else d.length + 1 := by
  by_cases hm : k ∈ dictKeys d
  · rw [if_pos hm]
    have h := congrArg List.length (dictKeys_pyInsert k v d)
    rw [if_pos hm] at h
    simpa [dictKeys] using h
  · rw [if_neg hm]
    have h := congrArg List.length (dictKeys_pyInsert k v d)
    rw [if_neg hm] at h
    simpa [dictKeys] using h

theorem pyGet_none_iff {β : Type} (d : Dict β) (k : String) :
    pyGet d k = none ↔ k ∉ dictKeys d := by
  induction d with
  | nil => simp [pyGet, dictKeys]
  | cons p rest ih =>
    by_cases h : p.1 = k
    · simp [pyGet, h, dictKeys_cons]
    · have hkp : ¬ k = p.1 := fun he => h he.symm
      simp [pyGet, h, dictKeys_cons, ih, hkp]

theorem pyGet_mem {β : Type} (d : Dict β) (k : String) (v : β)
    (h : pyGet d k = some v) : (k, v) ∈ d := by
  induction d with
  | nil => simp [pyGet] at h
  | cons p rest ih =>
    by_cases hp : p.1 = k
    · simp [pyGet, hp] at h
      have : (k, v) = p := by rw [← hp, ← h]
      rw [this]
      exact List.mem_cons_self p rest
    · simp [pyGet, hp] at h
      exact List.mem_cons_of_mem _ (ih h)

theorem pyGet_eq_of_nodup {β : Type} (d : Dict β) (k : String) (v : β)
    (hnd : (dictKeys d).Nodup) (hmem : (k, v) ∈ d) : pyGet d k = some v := by
  induction d with
  | nil => simp at hmem
  | cons p rest ih =>
    rcases List.mem_cons.mp hmem with h | h
    · simp [pyGet, ← h]
    · have hk : k ∈ dictKeys rest := by
        have hmm := List.mem_map_of_mem Prod.fst h
        simpa [dictKeys] using hmm
      have hp : ¬ p.1 = k := by
        intro he
        rw [dictKeys_cons] at hnd
        exact (List.nodup_cons.mp hnd).1 (he ▸ hk)
      simp [pyGet, hp]
      exact ih (List.nodup_cons.mp (dictKeys_cons p rest ▸ hnd)).2 h

theorem toFinset_dictKeys_pyUpdate {β : Type} (d : Dict β) (l : List (String × β)) :
    (dictKeys (pyUpdate d l)).toFinset =
      (dictKeys d).toFinset ∪ (l.map Prod.fst).toFinset := by
  induction l generalizing d with
  | nil => simp [pyUpdate]
  | cons p rest ih =>
    have hstep : pyUpdate d (p :: rest) = pyUpdate (pyInsert p.1 p.2 d) rest := rfl
    rw [hstep, ih, toFinset_dictKeys_pyInsert]
    ext a
    simp

theorem nodup_dictKeys_pyUpdate {β : Type} (d : Dict β) (l : List (String × β))
    (h : (dictKeys d).Nodup) : (dictKeys (pyUpdate d l)).Nodup := by
  induction l generalizing d with
  | nil => simpa [pyUpdate] using h
  | cons p rest ih =>
    have hstep : pyUpdate d (p :: rest) = pyUpdate (pyInsert p.1 p.2 d) rest := rfl
    rw [hstep]
    exact ih _ (nodup_dictKeys_pyInsert p.1 p.2 d h)

theorem pyGet_pyUpdate {β : Type} (d : Dict β) (l : List (String × β)) (k : String)
    (hl : (l.map Prod.fst).Nodup) :
    pyGet (pyUpdate d l) k = optOr (pyGet l k) (pyGet d k) := by
  induction l generalizing d with
  | nil => simp [pyUpdate, pyGet, optOr]
  | cons p rest ih =>
    have hstep : pyUpdate d (p :: rest) = pyUpdate (pyInsert p.1 p.2 d) rest := rfl
    rw [hstep]
    simp only [List.map_cons, List.nodup_cons] at hl
    rw [ih _ hl.2, pyGet_pyInsert]
    by_cases hk : p.1 = k
    · have hrest : pyGet rest k = none := by
        rw [pyGet_none_iff]
        intro hmem
        exact hl.1 (hk ▸ hmem)
      simp [pyGet, hk, hrest, optOr]
    · simp [pyGet, hk]

theorem mem_pyUpdate {β : Type} (d : Dict β) (l : List (String × β)) (x : String × β)
    (h : x ∈ pyUpdate d l) : x ∈ d ∨ x ∈ l := by
  induction l generalizing d with
  | nil => exact Or.inl h
  | cons p rest ih =>
    have hstep : pyUpdate d (p :: rest) = pyUpdate (pyInsert p.1 p.2 d) rest := rfl
    rw [hstep] at h
    rcases ih _ h with h' | h'
    · rcases mem_pyInsert p.1 p.2 d x h' with h'' | h''
      · right
        simp [h'']
      · left
        exact h''
    · right
      exact List.mem_cons_of_mem _ h'

theorem length_pyUpdate_le {β : Type} (d : Dict β) (l : List (String × β)) :
    (pyUpdate d l).length ≤ d.length + l.length := by
  induction l generalizing d with
  | nil => simp [pyUpdate]
  | cons p rest ih =>
    have hstep : pyUpdate d (p :: rest) = pyUpdate (pyInsert p.1 p.2 d) rest := rfl
    rw [hstep]
    calc (pyUpdate (pyInsert p.1 p.2 d) rest).length
        ≤ (pyInsert p.1 p.2 d).length + rest.length := ih _
      _ ≤ d.length + 1 + rest.length := by
          rw [length_pyInsert]
          by_cases hm : p.1 ∈ dictKeys d
          · simp only [hm, if_true]
            omega
          · simp only [hm, if_false]
            omega
      _ = d.length + (rest.length + 1) := by omega
      _ = d.length + (p :: rest).length := by simp

theorem length_pyUpdate_fresh {β : Type} (d : Dict β) (l : List (String × β))
    (hnd : (l.map Prod.fst).Nodup) (hdisj : ∀ k ∈ l.map Prod.fst, k ∉ dictKeys d) :
    (pyUpdate d l).length = d.length + l.length := by
  induction l generalizing d with
  | nil => simp [pyUpdate]
  | cons p rest ih =>
    have hstep : pyUpdate d (p :: rest) = pyUpdate (pyInsert p.1 p.2 d) rest := rfl
    simp only [List.map_cons, List.nodup_cons] at hnd
    have hp : p.1 ∉ dictKeys d := hdisj p.1 (by simp)
    have hdisj2 : ∀ k ∈ rest.map Prod.fst, k ∉ dictKeys (pyInsert p.1 p.2 d) := by
      intro k hk
      rw [dictKeys_pyInsert]
      simp [hp]
      constructor
      · exact hdisj k (by simp [hk])
      · intro he
        exact hnd.1 (he ▸ hk)
    rw [hstep, ih _ hnd.2 hdisj2, length_pyInsert]
    simp [hp]
    omega

theorem toFinset_dictKeys_pyDict {β : Type} (l : List (String × β)) :
    (dictKeys (pyDict l)).toFinset = (l.map Prod.fst).toFinset := by
  rw [pyDict, toFinset_dictKeys_pyUpdate]
  simp [dictKeys]

theorem nodup_dictKeys_pyDict {β : Type} (l : List (String × β)) :
    (dictKeys (pyDict l)).Nodup :=
  nodup_dictKeys_pyUpdate [] l (by simp [dictKeys])

theorem pyGet_pyDict {β : Type} (l : List (String × β)) (k : String)
    (hl : (l.map Prod.fst).Nodup) : pyGet (pyDict l) k = pyGet l k := by
  rw [pyDict, pyGet_pyUpdate [] l k hl]
  simp [pyGet, optOr_none_right]

theorem mem_pyDict {β : Type} (l : List (String × β)) (x : String × β)
    (h : x ∈ pyDict l) : x ∈ l := by
  rcases mem_pyUpdate [] l x h with h' | h'
  · simp at h'
  · exact h'

theorem length_pyDict_le {β : Type} (l : List (String × β)) :
    (pyDict l).length ≤ l.length := by
  have := length_pyUpdate_le ([] : Dict β) l
  simpa [pyDict] using this

theorem mem_dictKeys_iff {β : Type} (d : Dict β) (k : String) :
    k ∈ dictKeys d ↔ ∃ v, pyGet d k = some v := by
  constructor
  · intro h
    cases hv : pyGet d k with
    | none => exact absurd ((pyGet_none_iff d k).mp hv) (by simp [h])
    | some v => exact ⟨v, rfl⟩
  · rintro ⟨v, hv⟩
    by_contra hc
    rw [← pyGet_none_iff] at hc
    rw [hc] at hv
    exact Option.noConfusion hv

theorem pyGet_some_mem_dictKeys {β : Type} (d : Dict β) (k : String) (v : β)
    (h : pyGet d k = some v) : k ∈ dictKeys d :=
  (mem_dictKeys_iff d k).mpr ⟨v, h⟩

theorem chunksOf_nil {α : Type} (n : ℕ) : chunksOf n ([] : List α) = [] := by
  rw [chunksOf]

theorem chunksOf_zero {α : Type} (l : List α) (h : l ≠ []) :
    chunksOf 0 l = [l] := by
  cases l with
  | nil => exact absurd rfl h
  | cons a rest =>
    rw [chunksOf]
    simp

theorem chunksOf_pos {α : Type} (n : ℕ) (l : List α) (hn : n ≠ 0) (h : l ≠ []) :
    chunksOf n l = l.take n :: chunksOf n (l.drop n) := by
  cases l with
  | nil => exact absurd rfl h
  | cons a rest =>
    rw [chunksOf]
    simp [hn]

theorem join_chunksOf {α : Type} (n : ℕ) (l : List α) :
    (chunksOf n l).join = l := by
  generalize hk : l.length = k
  induction k using Nat.strong_induction_on generalizing l with
  | _ k ih =>
    by_cases h : l = []
    · subst h
      simp [chunksOf_nil]
    · by_cases hn : n = 0
      · subst hn
        simp [chunksOf_zero l h]
      · rw [chunksOf_pos n l hn h]
        have hlen : (l.drop n).length < k := by
          rw [← hk]
          simp only [List.length_drop]
          have h1 : 0 < l.length := List.length_pos.mpr h
          omega
        have hrec := ih (l.drop n).length hlen (l.drop n) rfl
        simp only [List.join_cons, hrec]
        exact List.take_append_drop n l

theorem batchRequests_append (size : ℕ) (a b : List Query) :
    batchRequests size (a ++ b) = batchRequests size a ++ batchRequests size b := by
  simp [batchRequests]

theorem batchRequests_nil (size : ℕ) : batchRequests size [] = [] := rfl

theorem batchRequests_singleton (size : ℕ) (q : Query) :
    batchRequests size [q] = [none, some (generate_request size q.text)] := by
  simp [batchRequests]

theorem filterMap_id_batchRequests (size : ℕ) (qs : List Query) :
    (batchRequests size qs).filterMap id =
      qs.map (fun q => generate_request size q.text) := by
  induction qs with
  | nil => rfl
  | cons q rest ih =>
    simp only [batchRequests, List.cons_bind] at ih ⊢
    simp [List.filterMap_append, ih]

theorem retrieve_loop_chunks (backend : Backend) (size bs : ℕ) :
    ∀ (qs pending : List Query) (acc : Dict (Dict ℚ))
      (trace : List (List (Option ESRequest))),
      (pending.length < bs ∨ bs = 0) →
      retrieve_loop backend size bs qs (pending.map Query._id)
          (batchRequests size pending) acc trace
        = ((chunksOf bs (pending ++ qs)).foldl (batchStep backend size) acc,
           trace ++ (chunksOf bs (pending ++ qs)).map (batchRequests size)) := by
  intro qs
  induction qs with
  | nil =>
    intro pending acc trace hbs
    simp only [List.append_nil]
    cases pending with
    | nil =>
      simp [retrieve_loop, chunksOf_nil]
    | cons p prest =>
      have hne : p :: prest ≠ ([] : List Query) := by simp
      have hch : chunksOf bs (p :: prest) = [p :: prest] := by
        rcases hbs with hlt | hz
        · rw [chunksOf_pos bs (p :: prest) (by omega) hne]
          rw [List.take_of_length_le (by omega), List.drop_of_length_le (by omega)]
          rw [chunksOf_nil]
        · rw [hz]
          exact chunksOf_zero _ hne
      rw [hch]
      simp [retrieve_loop, batchStep]
  | cons q rest ih =>
    intro pending acc trace hbs
    have hq1 : (pending.map Query._id ++ [q._id]) = (pending ++ [q]).map Query._id := by
      simp
    have hq2 : batchRequests size pending ++ [none, some (generate_request size q.text)]
        = batchRequests size (pending ++ [q]) := by
      rw [batchRequests_append, batchRequests_singleton]
    rw [retrieve_loop]
    by_cases hflush : pending.length + 1 = bs
    · have hcond : (pending.map Query._id ++ [q._id]).length = bs := by
        simpa using hflush
      rw [if_pos hcond, hq1, hq2]
      have hrec := ih [] (pyUpdate acc
        (retrieve_batch backend ((pending ++ [q]).map Query._id)
          (batchRequests size (pending ++ [q]))))
        (trace ++ [batchRequests size (pending ++ [q])])
        (Or.inl (by simp only [List.length_nil]; omega))
      simp only [List.map_nil, batchRequests_nil, List.nil_append] at hrec
      rw [hrec]
      have hsplit : chunksOf bs (pending ++ q :: rest)
          = (pending ++ [q]) :: chunksOf bs rest := by
        have hne : pending ++ q :: rest ≠ [] := by simp
        have hlen : (pending ++ [q]).length = bs := by simp [hflush]
        rw [chunksOf_pos bs _ (by omega) hne]
        have happ : pending ++ q :: rest = (pending ++ [q]) ++ rest := by simp
        rw [happ, ← hlen, List.take_left, List.drop_left]
      rw [hsplit]
      simp [batchStep, List.append_assoc]
    · have hcond : ¬ (pending.map Query._id ++ [q._id]).length = bs := by
        simpa using hflush
      rw [if_neg hcond, hq1, hq2]
      have hbs2 : (pending ++ [q]).length < bs ∨ bs = 0 := by
        rcases hbs with hlt | hz
        · left
          simp only [List.length_append, List.length_singleton]
          omega
        · right
          exact hz
      have hrec := ih (pending ++ [q]) acc trace hbs2
      rw [hrec]
      simp

theorem retrieve_eq_chunks (queries : List Query) (backend : Backend)
    (size bs : ℕ) :
    retrieve queries backend size bs
      = (chunksOf bs queries).foldl (batchStep backend size) [] := by
  have h := retrieve_loop_chunks backend size bs queries [] [] []
    (by rcases Nat.eq_zero_or_pos bs with h | h
        · right; exact h
        · left; simpa using h)
  simp only [List.map_nil, batchRequests_nil, List.nil_append] at h
  rw [retrieve, h]

theorem retrieve_trace_eq_chunks (queries : List Query) (backend : Backend)
    (size bs : ℕ) :
    retrieve_trace queries backend size bs
      = (chunksOf bs queries).map (batchRequests size) := by
  have h := retrieve_loop_chunks backend size bs queries [] [] []
    (by rcases Nat.eq_zero_or_pos bs with h | h
        · right; exact h
        · left; simpa using h)
  simp only [List.map_nil, batchRequests_nil, List.nil_append] at h
  rw [retrieve_trace, h]

theorem retrieve_batch_error (backend : Backend) (query_ids : List String)
    (es_requests : List (Option ESRequest)) (e : String)
    (h : backend es_requests = Except.error e) :
    retrieve_batch backend query_ids es_requests = [] := by
  simp [retrieve_batch, h]

theorem nodup_dictKeys_retrieve_batch (backend : Backend) (query_ids : List String)
    (es_requests : List (Option ESRequest)) :
    (dictKeys (retrieve_batch backend query_ids es_requests)).Nodup := by
  rw [retrieve_batch]
  cases backend es_requests with
  | error e => simp [dictKeys]
  | ok resps => exact nodup_dictKeys_pyDict _

theorem mem_dictKeys_retrieve_batch (backend : Backend) (query_ids : List String)
    (es_requests : List (Option ESRequest)) (k : String)
    (h : k ∈ dictKeys (retrieve_batch backend query_ids es_requests)) :
    k ∈ query_ids := by
  rw [retrieve_batch] at h
  cases hb : backend es_requests with
  | error e => rw [hb] at h; simp [dictKeys] at h
  | ok resps =>
    rw [hb] at h
    have h2 := List.mem_toFinset.mpr h
    rw [toFinset_dictKeys_pyDict] at h2
    have h3 := List.mem_toFinset.mp h2
    simp only [List.map_map] at h3
    rcases List.mem_map.mp h3 with ⟨p, hp, hpk⟩
    have := (List.mem_zip hp).1
    simp only [Function.comp] at hpk
    rw [← hpk]
    exact this

theorem toFinset_dictKeys_retrieve_batch (backend : Backend)
    (query_ids : List String) (es_requests : List (Option ESRequest))
    (resps : List ESResponse) (hok : backend es_requests = Except.ok resps)
    (hlen : resps.length = query_ids.length) :
    (dictKeys (retrieve_batch backend query_ids es_requests)).toFinset
      = query_ids.toFinset := by
  rw [retrieve_batch, hok, toFinset_dictKeys_pyDict]
  simp only [List.map_map]
  have hcomp : (Prod.fst ∘ fun (p : String × ESResponse) => (p.1, pyDict p.2.hits))
      = Prod.fst := rfl
  rw [hcomp, List.map_fst_zip query_ids resps (by omega)]

theorem mem_dictKeys_foldl_batchStep (backend : Backend) (size : ℕ) :
    ∀ (cs : List (List Query)) (acc : Dict (Dict ℚ)) (k : String),
      k ∈ dictKeys (cs.foldl (batchStep backend size) acc) →
      k ∈ dictKeys acc ∨ ∃ c ∈ cs, k ∈ c.map Query._id := by
  intro cs
  induction cs with
  | nil =>
    intro acc k h
    exact Or.inl h
  | cons c rest ih =>
    intro acc k h
    rcases ih (batchStep backend size acc c) k h with h' | h'
    · have h2 := List.mem_toFinset.mpr h'
      rw [batchStep, toFinset_dictKeys_pyUpdate] at h2
      rcases Finset.mem_union.mp h2 with h3 | h3
      · exact Or.inl (List.mem_toFinset.mp h3)
      · right
        refine ⟨c, by simp, ?_⟩
        have h4 := List.mem_toFinset.mp h3
        have h5 : k ∈ dictKeys (retrieve_batch backend (c.map Query._id)
            (batchRequests size c)) := h4
        exact mem_dictKeys_retrieve_batch _ _ _ _ h5
    · rcases h' with ⟨c', hc', hk⟩
      exact Or.inr ⟨c', List.mem_cons_of_mem _ hc', hk⟩

theorem nodup_dictKeys_foldl_batchStep (backend : Backend) (size : ℕ) :
    ∀ (cs : List (List Query)) (acc : Dict (Dict ℚ)),
      (dictKeys acc).Nodup →
      (dictKeys (cs.foldl (batchStep backend size) acc)).Nodup := by
  intro cs
  induction cs with
  | nil => intro acc h; exact h
  | cons c rest ih =>
    intro acc h
    exact ih _ (nodup_dictKeys_pyUpdate _ _ h)

theorem toFinset_dictKeys_foldl_batchStep (backend : Backend) (size : ℕ) :
    ∀ (cs : List (List Query)) (acc : Dict (Dict ℚ)),
      (∀ c ∈ cs, ∃ resps, backend (batchRequests size c) = Except.ok resps ∧
        resps.length = c.length) →
      (dictKeys (cs.foldl (batchStep backend size) acc)).toFinset
        = (dictKeys acc).toFinset ∪ (cs.join.map Query._id).toFinset := by
  intro cs
  induction cs with
  | nil =>
    intro acc _
    simp
  | cons c rest ih =>
    intro acc hok
    have hc := hok c (by simp)
    rcases hc with ⟨resps, hr, hlen⟩
    have hrest : ∀ c' ∈ rest, ∃ resps, backend (batchRequests size c') = Except.ok resps ∧
        resps.length = c'.length := fun c' hc' => hok c' (List.mem_cons_of_mem _ hc')
    simp only [List.foldl_cons]
    rw [ih _ hrest]
    have hbatch : (dictKeys (batchStep backend size acc c)).toFinset
        = (dictKeys acc).toFinset ∪ (c.map Query._id).toFinset := by
      rw [batchStep, toFinset_dictKeys_pyUpdate]
      have : ((retrieve_batch backend (c.map Query._id)
          (batchRequests size c)).map Prod.fst).toFinset
          = (c.map Query._id).toFinset := by
        have := toFinset_dictKeys_retrieve_batch backend (c.map Query._id)
          (batchRequests size c) resps hr (by simp [hlen])
        simpa [dictKeys] using this
      rw [this]
    rw [hbatch]
    simp only [List.join_cons, List.map_append, List.toFinset_append]
    rw [Finset.union_assoc]

theorem pyGet_foldl_batchStep_none (backend : Backend) (size : ℕ) :
    ∀ (cs : List (List Query)) (acc : Dict (Dict ℚ)) (k : String),
      (∀ c ∈ cs, pyGet (retrieve_batch backend (c.map Query._id)
        (batchRequests size c)) k = none) →
      pyGet (cs.foldl (batchStep backend size) acc) k = pyGet acc k := by
  intro cs
  induction cs with
  | nil => intro acc k _; rfl
  | cons c rest ih =>
    intro acc k hnone
    simp only [List.foldl_cons]
    rw [ih _ _ (fun c' hc' => hnone c' (List.mem_cons_of_mem _ hc'))]
    rw [batchStep, pyGet_pyUpdate _ _ _ (nodup_dictKeys_retrieve_batch backend _ _)]
    rw [hnone c (by simp)]
    rfl

theorem pyGet_foldl_batchStep_of_mem (backend : Backend) (size : ℕ) :
    ∀ (cs : List (List Query)) (acc : Dict (Dict ℚ)) (b : List Query) (q : Query),
      ((cs.map (fun c => c.map Query._id)).join).Nodup →
      b ∈ cs → q ∈ b →
      pyGet (cs.foldl (batchStep backend size) acc) q._id
        = optOr (pyGet (retrieve_batch backend (b.map Query._id)
            (batchRequests size b)) q._id)
            (pyGet acc q._id) := by
  intro cs
  induction cs with
  | nil =>
    intro acc b q _ hb
    simp at hb
  | cons c rest ih =>
    intro acc b q hnd hb hq
    have hnd2 : ((rest.map (fun c => c.map Query._id)).join).Nodup := by
      simp only [List.map_cons, List.join_cons] at hnd
      exact (List.nodup_append.mp hnd).2.1
    have hdisjoint : ∀ k, k ∈ c.map Query._id →
        k ∈ (rest.map (fun c => c.map Query._id)).join → False := by
      simp only [List.map_cons, List.join_cons] at hnd
      intro k h1 h2
      exact (List.nodup_append.mp hnd).2.2 h1 h2
    rcases List.mem_cons.mp hb with hbc | hbrest
    · subst hbc
      have hqid : q._id ∈ b.map Query._id := List.mem_map_of_mem Query._id hq
      have hnone : ∀ c' ∈ rest, pyGet (retrieve_batch backend (c'.map Query._id)
          (batchRequests size c')) q._id = none := by
        intro c' hc'
        rw [pyGet_none_iff]
        intro hmem
        have hk := mem_dictKeys_retrieve_batch backend _ _ _ hmem
        have hjoin : q._id ∈ (rest.map (fun c => c.map Query._id)).join := by
          rw [List.mem_join]
          exact ⟨c'.map Query._id, List.mem_map_of_mem _ hc', hk⟩
        exact hdisjoint q._id hqid hjoin
      simp only [List.foldl_cons]
      rw [pyGet_foldl_batchStep_none backend size rest _ _ hnone]
      rw [batchStep, pyGet_pyUpdate _ _ _ (nodup_dictKeys_retrieve_batch backend _ _)]
    · have hqid : q._id ∈ (rest.map (fun c => c.map Query._id)).join := by
        rw [List.mem_join]
        exact ⟨b.map Query._id, List.mem_map_of_mem _ hbrest,
          List.mem_map_of_mem Query._id hq⟩
      have hcnone : pyGet (retrieve_batch backend (c.map Query._id)
          (batchRequests size c)) q._id = none := by
        rw [pyGet_none_iff]
        intro hmem
        exact hdisjoint q._id (mem_dictKeys_retrieve_batch backend _ _ _ hmem) hqid
      simp only [List.foldl_cons]
      rw [ih _ b q hnd2 hbrest hq]
      rw [batchStep, pyGet_pyUpdate _ _ _ (nodup_dictKeys_retrieve_batch backend _ _)]
      rw [hcnone]
      rfl

theorem forall2_exists_left {α β : Type} (R : α → β → Prop) :
    ∀ (l1 : List α) (l2 : List β), List.Forall₂ R l1 l2 →
      ∀ b ∈ l2, ∃ a ∈ l1, R a b := by
  intro l1 l2 h
  induction h with
  | nil => intro b hb; simp at hb
  | cons hab _ ih =>
    intro b hb
    rcases List.mem_cons.mp hb with hb | hb
    · subst hb
      exact ⟨_, by simp, hab⟩
    · rcases ih b hb with ⟨a, ha, har⟩
      exact ⟨a, List.mem_cons_of_mem _ ha, har⟩

theorem retrieve_batch_value_le (backend : Backend) (size : ℕ) (c : List Query)
    (hcontract : ∀ reqs resps, backend reqs = Except.ok resps →
      List.Forall₂ (fun (b : ESRequest) (r : ESResponse) => r.hits.length ≤ b.size)
        (reqs.filterMap id) resps)
    (k : String) (m : Dict ℚ)
    (h : pyGet (retrieve_batch backend (c.map Query._id)
        (batchRequests size c)) k = some m) :
    m.length ≤ size := by
  rw [retrieve_batch] at h
  cases hb : backend (batchRequests size c) with
  | error e => rw [hb] at h; simp [pyGet] at h
  | ok resps =>
    rw [hb] at h
    have hmem := mem_pyDict _ _ (pyGet_mem _ _ _ h)
    rcases List.mem_map.mp hmem with ⟨p, hp, hpe⟩
    have hr : p.2 ∈ resps := (List.mem_zip hp).2
    have hforall := hcontract _ _ hb
    rw [filterMap_id_batchRequests] at hforall
    rcases forall2_exists_left _ _ _ hforall p.2 hr with ⟨body, hbody, hle⟩
    rcases List.mem_map.mp hbody with ⟨q, _, hqe⟩
    have hsize : body.size = size := by rw [← hqe]; rfl
    have hm : m = pyDict p.2.hits := (congrArg Prod.snd hpe).symm
    rw [hm]
    calc (pyDict p.2.hits).length ≤ p.2.hits.length := length_pyDict_le _
      _ ≤ body.size := hle
      _ = size := hsize

theorem pyGet_foldl_batchStep_value_le (backend : Backend) (size : ℕ)
    (hcontract : ∀ reqs resps, backend reqs = Except.ok resps →
      List.Forall₂ (fun (b : ESRequest) (r : ESResponse) => r.hits.length ≤ b.size)
        (reqs.filterMap id) resps) :
    ∀ (cs : List (List Query)) (acc : Dict (Dict ℚ)),
      (∀ k m, pyGet acc k = some m → m.length ≤ size) →
      ∀ k m, pyGet (cs.foldl (batchStep backend size) acc) k = some m →
        m.length ≤ size := by
  intro cs
  induction cs with
  | nil => intro acc hacc k m h; exact hacc k m h
  | cons c rest ih =>
    intro acc hacc k m h
    refine ih _ ?_ k m h
    intro k' m' h'
    rw [batchStep, pyGet_pyUpdate _ _ _ (nodup_dictKeys_retrieve_batch backend _ _)] at h'
    cases hbv : pyGet (retrieve_batch backend (c.map Query._id)
        (batchRequests size c)) k' with
    | none =>
      rw [hbv] at h'
      exact hacc k' m' h'
    | some mv =>
      rw [hbv] at h'
      have : mv = m' := by
        simpa [optOr] using h'
      subst this
      exact retrieve_batch_value_le backend size c hcontract k' mv hbv

theorem lookupAll_length {β : Type} (d : Dict β) :
    ∀ (ks : List String) (vs : List β), lookupAll d ks = Except.ok vs →
      vs.length = ks.length := by
  intro ks
  induction ks with
  | nil =>
    intro vs h
    simp [lookupAll] at h
    simp [← h]
  | cons k rest ih =>
    intro vs h
    rw [lookupAll] at h
    cases hk : pyGet d k with
    | none => rw [hk] at h; exact absurd h (by simp)
    | some v =>
      rw [hk] at h
      cases hrest : lookupAll d rest with
      | error e => rw [hrest] at h; exact absurd h (by simp)
      | ok vs' =>
        rw [hrest] at h
        simp at h
        rw [← h]
        simp [ih vs' hrest]

theorem lookupAll_zip_mem {β : Type} (d : Dict β) :
    ∀ (ks : List String) (vs : List β), lookupAll d ks = Except.ok vs →
      ∀ (k : String) (v : β), (k, v) ∈ ks.zip vs → pyGet d k = some v := by
  intro ks
  induction ks with
  | nil =>
    intro vs _ k v hm
    simp at hm
  | cons k0 rest ih =>
    intro vs h k v hm
    rw [lookupAll] at h
    cases hk : pyGet d k0 with
    | none => rw [hk] at h; exact absurd h (by simp)
    | some v0 =>
      rw [hk] at h
      cases hrest : lookupAll d rest with
      | error e => rw [hrest] at h; exact absurd h (by simp)
      | ok vs' =>
        rw [hrest] at h
        simp at h
        rw [← h] at hm
        simp only [List.zip_cons_cons, List.mem_cons, Prod.mk.injEq] at hm
        rcases hm with ⟨he1, he2⟩ | he
        · rw [he1, he2]
          exact hk
        · exact ih vs' hrest k v he

theorem rerank_loop_keys_subset (model : String → String → ℚ)
    (qdict cdict : Dict String) :
    ∀ (bm : List (String × Dict ℚ)) (acc res : Dict (Dict ℚ)),
      rerank_loop model qdict cdict bm acc = Except.ok res →
      ∀ k ∈ dictKeys res, k ∈ dictKeys acc ∨ k ∈ dictKeys bm := by
  intro bm
  induction bm with
  | nil =>
    intro acc res h k hk
    simp [rerank_loop] at h
    rw [← h] at hk
    exact Or.inl hk
  | cons entry rest ih =>
    rcases entry with ⟨qid0, bmres⟩
    intro acc res h k hk
    rw [rerank_loop] at h
    cases hq : pyGet qdict qid0 with
    | none => rw [hq] at h; exact absurd h (by simp)
    | some qt =>
      rw [hq] at h
      dsimp only [] at h
      have hnext : ∀ acc2, rerank_loop model qdict cdict rest acc2 = Except.ok res →
          acc2 = pyInsert qid0 ([] : Dict ℚ) acc ∨
          (∃ X, acc2 = pyInsert qid0 X acc) →
          (k ∈ dictKeys acc ∨ k ∈ dictKeys ((qid0, bmres) :: rest)) := by
        intro acc2 h2 hform
        rcases ih acc2 res h2 k hk with hin | hin
        · rcases hform with hf | ⟨X, hf⟩ <;> rw [hf] at hin <;>
          · rw [dictKeys_pyInsert] at hin
            by_cases hq0 : qid0 ∈ dictKeys acc
            · rw [if_pos hq0] at hin
              exact Or.inl hin
            · rw [if_neg hq0] at hin
              rcases List.mem_append.mp hin with hin | hin
              · exact Or.inl hin
              · right
                simp at hin
                simp [dictKeys_cons, hin]
        · right
          rw [dictKeys_cons]
          exact List.mem_cons_of_mem _ hin
      by_cases hlen : (dictKeys bmres).length = 0
      · rw [if_pos hlen] at h
        exact hnext _ h (Or.inl rfl)
      · rw [if_neg hlen] at h
        cases hla : lookupAll cdict (dictKeys bmres) with
        | error e => rw [hla] at h; exact absurd h (by simp)
        | ok doc_texts =>
          rw [hla] at h
          exact hnext _ h (Or.inr ⟨_, rfl⟩)

theorem pyGet_cons {β : Type} (p : String × β) (d : Dict β) (k : String) :
    pyGet (p :: d) k = if p.1 = k then some p.2 else pyGet d k := rfl

theorem rerank_loop_spec (model : String → String → ℚ) (qdict cdict : Dict String) :
    ∀ (bm : List (String × Dict ℚ)) (acc res : Dict (Dict ℚ)),
      (dictKeys bm).Nodup →
      (∀ k ∈ dictKeys bm, k ∉ dictKeys acc) →
      rerank_loop model qdict cdict bm acc = Except.ok res →
      dictKeys res = dictKeys acc ++ dictKeys bm ∧
      (∀ qid m, pyGet res qid = some m →
        (pyGet acc qid = some m ∨
         ∃ bmq, pyGet bm qid = some bmq ∧
           (dictKeys m).toFinset = (dictKeys bmq).toFinset ∧
           (bmq = [] → m = []))) := by
  intro bm
  induction bm with
  | nil =>
    intro acc res _ _ h
    simp [rerank_loop] at h
    subst h
    exact ⟨by simp [dictKeys], fun qid m hm => Or.inl hm⟩
  | cons entry rest ih =>
    rcases entry with ⟨qid0, bmres⟩
    intro acc res hnd hfresh h
    rw [rerank_loop] at h
    cases hq : pyGet qdict qid0 with
    | none => rw [hq] at h; exact absurd h (by simp)
    | some qt =>
      rw [hq] at h
      dsimp only [] at h
      have hnd0 : qid0 ∉ dictKeys rest := by
        rw [dictKeys_cons] at hnd
        exact (List.nodup_cons.mp hnd).1
      have hndrest : (dictKeys rest).Nodup := by
        rw [dictKeys_cons] at hnd
        exact (List.nodup_cons.mp hnd).2
      have hfresh0 : qid0 ∉ dictKeys acc := hfresh qid0 (by simp [dictKeys_cons])
      have hcont : ∀ X : Dict ℚ,
          (dictKeys X).toFinset = (dictKeys bmres).toFinset →
          (bmres = [] → X = []) →
          rerank_loop model qdict cdict rest (pyInsert qid0 X acc) = Except.ok res →
          dictKeys res = dictKeys acc ++ dictKeys ((qid0, bmres) :: rest) ∧
          (∀ qid m, pyGet res qid = some m →
            (pyGet acc qid = some m ∨
             ∃ bmq, pyGet ((qid0, bmres) :: rest) qid = some bmq ∧
               (dictKeys m).toFinset = (dictKeys bmq).toFinset ∧
               (bmq = [] → m = []))) := by
        intro X hXkeys hXempty hrec
        have hkeysIns : dictKeys (pyInsert qid0 X acc) = dictKeys acc ++ [qid0] := by
          rw [dictKeys_pyInsert, if_neg hfresh0]
        have hfresh2 : ∀ k ∈ dictKeys rest, k ∉ dictKeys (pyInsert qid0 X acc) := by
          intro k hk
          rw [hkeysIns]
          intro hmem
          rcases List.mem_append.mp hmem with hmem | hmem
          · exact hfresh k (by simp [dictKeys_cons, hk]) hmem
          · simp at hmem
            exact hnd0 (hmem ▸ hk)
        rcases ih (pyInsert qid0 X acc) res hndrest hfresh2 hrec with ⟨hkeys, hentries⟩
        constructor
        · rw [hkeys, hkeysIns, dictKeys_cons]
          simp
        · intro qid m hm
          rcases hentries qid m hm with hacc2 | ⟨bmq, hbmq, hkeq, hemp⟩
          · rw [pyGet_pyInsert] at hacc2
            by_cases hq0 : qid0 = qid
            · rw [if_pos hq0] at hacc2
              have hmX : m = X := by
                injection hacc2.symm
              right
              refine ⟨bmres, ?_, ?_, ?_⟩
              · rw [pyGet_cons]
                simp [hq0]
              · rw [hmX]
                exact hXkeys
              · intro he
                rw [hmX]
                exact hXempty he
            · rw [if_neg hq0] at hacc2
              exact Or.inl hacc2
          · have hqne : ¬ qid0 = qid := by
              intro he
              exact hnd0 (he ▸ pyGet_some_mem_dictKeys rest qid bmq hbmq)
            right
            refine ⟨bmq, ?_, hkeq, hemp⟩
            rw [pyGet_cons, if_neg ?_]
            · exact hbmq
            · simpa using hqne
      by_cases hlen : (dictKeys bmres).length = 0
      · rw [if_pos hlen] at h
        have hbm0 : bmres = [] := by
          have := List.length_eq_zero.mp hlen
          simpa [dictKeys] using this
        refine hcont [] ?_ (fun _ => rfl) h
        rw [hbm0]
      · rw [if_neg hlen] at h
        cases hla : lookupAll cdict (dictKeys bmres) with
        | error e => rw [hla] at h; exact absurd h (by simp)
        | ok doc_texts =>
          rw [hla] at h
          refine hcont _ ?_ ?_ h
          · rw [toFinset_dictKeys_pyDict]
            have hlenmap : (dictKeys bmres).length
                ≤ (doc_texts.map (fun t => model qt t)).length := by
              rw [List.length_map, lookupAll_length cdict _ _ hla]
            rw [List.map_fst_zip _ _ hlenmap]
          · intro he
            exfalso
            apply hlen
            rw [he]
            rfl

theorem rerank_loop_entry_origin (model : String → String → ℚ)
    (qdict cdict : Dict String) :
    ∀ (bm : List (String × Dict ℚ)) (acc res : Dict (Dict ℚ)),
      rerank_loop model qdict cdict bm acc = Except.ok res →
      ∀ (qid : String) (m : Dict ℚ) (did : String) (s : ℚ),
        pyGet res qid = some m → (did, s) ∈ m →
        ((∃ m0, pyGet acc qid = some m0 ∧ (did, s) ∈ m0) ∨
         (∃ qt t, pyGet qdict qid = some qt ∧ pyGet cdict did = some t ∧
            s = model qt t)) := by
  intro bm
  induction bm with
  | nil =>
    intro acc res h qid m did s hm hmem
    simp [rerank_loop] at h
    subst h
    exact Or.inl ⟨m, hm, hmem⟩
  | cons entry rest ih =>
    rcases entry with ⟨qid0, bmres⟩
    intro acc res h qid m did s hm hmem
    rw [rerank_loop] at h
    cases hq : pyGet qdict qid0 with
    | none => rw [hq] at h; exact absurd h (by simp)
    | some qt =>
      rw [hq] at h
      dsimp only [] at h
      have hstep : ∀ X : Dict ℚ,
          rerank_loop model qdict cdict rest (pyInsert qid0 X acc) = Except.ok res →
          ((did, s) ∈ X → qid0 = qid →
            (∃ qt2 t, pyGet qdict qid = some qt2 ∧ pyGet cdict did = some t ∧
              s = model qt2 t) ∨ False) →
          ((∃ m0, pyGet acc qid = some m0 ∧ (did, s) ∈ m0) ∨
           (∃ qt2 t, pyGet qdict qid = some qt2 ∧ pyGet cdict did = some t ∧
              s = model qt2 t)) := by
        intro X hrec hX
        rcases ih (pyInsert qid0 X acc) res hrec qid m did s hm hmem with
          ⟨m0, hm0, hmm0⟩ | hr
        · rw [pyGet_pyInsert] at hm0
          by_cases hq0 : qid0 = qid
          · rw [if_pos hq0] at hm0
            have hm0X : m0 = X := by injection hm0.symm
            rcases hX (hm0X ▸ hmm0) hq0 with hok | hfalse
            · exact Or.inr hok
            · exact absurd hfalse (by simp)
          · rw [if_neg hq0] at hm0
            exact Or.inl ⟨m0, hm0, hmm0⟩
        · exact Or.inr hr
      by_cases hlen : (dictKeys bmres).length = 0
      · rw [if_pos hlen] at h
        refine hstep [] h ?_
        intro hmem2 _
        simp at hmem2
      · rw [if_neg hlen] at h
        cases hla : lookupAll cdict (dictKeys bmres) with
        | error e => rw [hla] at h; exact absurd h (by simp)
        | ok doc_texts =>
          rw [hla] at h
          refine hstep _ h ?_
          intro hmem2 hq0
          left
          have hmemzip := mem_pyDict _ _ hmem2
          rw [List.zip_map_right] at hmemzip
          rcases List.mem_map.mp hmemzip with ⟨pr, hpr, hpre⟩
          have hdid : pr.1 = did := congrArg Prod.fst hpre
          have hs : model qt pr.2 = s := congrArg Prod.snd hpre
          refine ⟨qt, pr.2, ?_, ?_, hs.symm⟩
          · rw [← hq0]
            exact hq
          · rw [← hdid]
            exact lookupAll_zip_mem cdict _ _ hla pr.1 pr.2 (by
              rcases pr with ⟨pa, pb⟩
              exact hpr)

theorem pyGet_corpus_dict (corpus : List CorpusRow) (did : String) (t : String)
    (h : pyGet (corpus_dict corpus) did = some t) :
    ∃ row ∈ corpus, row._id = did ∧ t = row.title ++ " " ++ row.text := by
  have hmem := mem_pyDict _ _ (pyGet_mem _ _ _ h)
  rcases List.mem_map.mp hmem with ⟨row, hrow, hre⟩
  refine ⟨row, hrow, ?_, ?_⟩
  · exact congrArg Prod.fst hre
  · exact (congrArg Prod.snd hre).symm

theorem mem_filtered_queries (queries : List Query) (qrels : Dict (Dict ℕ))
    (q : Query) (h : q ∈ filtered_queries queries qrels) :
    q._id ∈ dictKeys qrels := by
  have := List.of_mem_filter h
  simpa using this

theorem pyGet_pyAppend_getD (k : String) (v : ℚ) (d : Dict (List ℚ)) (m : String) :
    (pyGet (pyAppend k v d) m).getD [] =
      (pyGet d m).getD [] ++ (if k = m then [v] else []) := by
  induction d with
  | nil =>
    by_cases hkm : k = m
    · simp [pyAppend, pyGet, hkm]
    · simp [pyAppend, pyGet, hkm]
  | cons p rest ih =>
    by_cases hpk : p.1 = k
    · by_cases hkm : k = m
      · have hpm : p.1 = m := hpk.trans hkm
        simp [pyAppend, pyGet, hpk, hpm, hkm]
      · have hpm : ¬ p.1 = m := fun he => hkm (hpk.symm.trans he)
        simp [pyAppend, pyGet, hpk, hpm, hkm]
    · by_cases hpm : p.1 = m
      · have hkm : ¬ k = m := fun he => hpk (by rw [he, hpm])
        have hmk : ¬ m = k := fun he => hkm he.symm
        simp [pyAppend, pyGet, hpk, hpm, hkm, hmk]
      · simp [pyAppend, pyGet, hpk, hpm, ih]

theorem pyGet_add_vals_getD :
    ∀ (vals : List (String × ℚ)) (acc : Dict (List ℚ)) (m : String),
      (pyGet (add_vals vals acc) m).getD [] =
        (pyGet acc m).getD [] ++ collectVals m vals := by
  intro vals
  induction vals with
  | nil =>
    intro acc m
    simp [add_vals, collectVals]
  | cons p rest ih =>
    intro acc m
    have hstep : add_vals (p :: rest) acc = add_vals rest (pyAppend p.1 p.2 acc) := rfl
    rw [hstep, ih, pyGet_pyAppend_getD]
    by_cases hpm : p.1 = m
    · simp [collectVals, hpm]
    · simp [collectVals, hpm]

theorem pyGet_eval_scores_getD :
    ∀ (epq : List (String × List (String × ℚ))) (m : String),
      (pyGet (eval_scores epq) m).getD [] = collect m epq := by
  have hgen : ∀ (epq : List (String × List (String × ℚ)))
      (acc : Dict (List ℚ)) (m : String),
      (pyGet (epq.foldl (fun acc qv => add_vals qv.2 acc) acc) m).getD [] =
        (pyGet acc m).getD [] ++ collect m epq := by
    intro epq
    induction epq with
    | nil =>
      intro acc m
      simp [collect]
    | cons qv rest ih =>
      intro acc m
      simp only [List.foldl_cons]
      rw [ih, pyGet_add_vals_getD, collect]
      simp [List.append_assoc]
  intro epq m
  have h := hgen epq [] m
  simpa [eval_scores, pyGet] using h

theorem collect_eq_flatMap (m : String) (epq : List (String × List (String × ℚ))) :
    collect m epq = epq.bind (fun qv => collectVals m qv.2) := by
  induction epq with
  | nil => rfl
  | cons qv rest ih => simp [collect, ih]

theorem collect_perm (m : String) (epq1 epq2 : List (String × List (String × ℚ)))
    (h : epq1.Perm epq2) : (collect m epq1).Perm (collect m epq2) := by
  rw [collect_eq_flatMap, collect_eq_flatMap]
  exact h.bind_right _

theorem mean_perm (l1 l2 : List ℚ) (h : l1.Perm l2) : mean l1 = mean l2 := by
  rw [mean, mean, h.sum_eq, h.length_eq]

theorem forall2_map_self {α β : Type} (f : α → β) (R : α → β → Prop)
    (l : List α) (h : ∀ a ∈ l, R a (f a)) : List.Forall₂ R l (l.map f) := by
  induction l with
  | nil => exact List.Forall₂.nil
  | cons a rest ih =>
    exact List.Forall₂.cons (h a (by simp))
      (ih (fun a' ha' => h a' (List.mem_cons_of_mem _ ha')))

/-- Claim C9: every search request the retriever issues is a `best_fields`
`multi_match` query over exactly the two weighted fields `title` and `txt`,
with the fixed tie-breaker constant 0.5. -/
theorem retrieve_requests_are_best_fields_multi_match (queries : List Query)
    (backend : Backend) (size bs : ℕ) (reqs : List (Option ESRequest))
    (r : ESRequest)
    (hreqs : reqs ∈ retrieve_trace queries backend size bs)
    (hr : some r ∈ reqs) :
    r.query.match_type = "best_fields" ∧ r.query.fields = ["title", "txt"] ∧
    r.query.fields.length = 2 ∧ r.query.tie_breaker = 1/2 := by
  rw [retrieve_trace_eq_chunks] at hreqs
  rcases List.mem_map.mp hreqs with ⟨c, _, hce⟩
  rw [← hce] at hr
  rcases List.mem_bind.mp hr with ⟨q, _, hq⟩
  simp at hq
  rw [hq]
  exact ⟨rfl, rfl, rfl, rfl⟩

theorem retrieve_requests_are_best_fields_multi_match_witness :
    (generate_request 5 "hello").query.match_type = "best_fields" ∧
    (generate_request 5 "hello").query.fields = ["title", "txt"] ∧
    (generate_request 5 "hello").query.fields.length = 2 ∧
    (generate_request 5 "hello").query.tie_breaker = 1/2 :=
  retrieve_requests_are_best_fields_multi_match
    [{ _id := "q1", text := "hello" }] (fun _ => Except.error "down") 5 32
    (batchRequests 5 [{ _id := "q1", text := "hello" }])
    (generate_request 5 "hello")
    (by
      rw [retrieve_trace_eq_chunks, chunksOf_pos 32 _ (by omega) (by simp)]
      simp [chunksOf_nil])
    (by simp [batchRequests])

/-- Claim C3: when no batch request fails (the msearch backend answers every
issued call with one response per search), the mapping returned by `retrieve`
contains exactly one entry per input query id, the final partial batch
included: its key set is the set of input query ids and its keys are
duplicate-free. -/
theorem retrieve_one_entry_per_query_id (queries : List Query) (backend : Backend)
    (size bs : ℕ)
    (hok : ∀ reqs ∈ retrieve_trace queries backend size bs,
      ∃ resps, backend reqs = Except.ok resps ∧
        resps.length = (reqs.filterMap id).length) :
    (dictKeys (retrieve queries backend size bs)).toFinset
      = (queries.map Query._id).toFinset ∧
    (dictKeys (retrieve queries backend size bs)).Nodup := by
  rw [retrieve_eq_chunks]
  rw [retrieve_trace_eq_chunks] at hok
  constructor
  · rw [toFinset_dictKeys_foldl_batchStep backend size _ [] ?hc]
    · rw [join_chunksOf]
      simp [dictKeys]
    case hc =>
      intro c hc
      rcases hok (batchRequests size c) (List.mem_map_of_mem _ hc) with
        ⟨resps, hr, hlen⟩
      refine ⟨resps, hr, ?_⟩
      rw [hlen, filterMap_id_batchRequests]
      simp
  · exact nodup_dictKeys_foldl_batchStep backend size _ [] (by simp [dictKeys])

theorem retrieve_one_entry_per_query_id_witness :
    (dictKeys (retrieve
        [{ _id := "q1", text := "a" }, { _id := "q2", text := "b" },
         { _id := "q3", text := "c" }]
        (fun reqs => Except.ok ((reqs.filterMap id).map
          (fun _ => { hits := [("d1", (3 : ℚ))] }))) 1 2)).toFinset
      = (([{ _id := "q1", text := "a" }, { _id := "q2", text := "b" },
          { _id := "q3", text := "c" }] : List Query).map Query._id).toFinset ∧
    (dictKeys (retrieve
        [{ _id := "q1", text := "a" }, { _id := "q2", text := "b" },
         { _id := "q3", text := "c" }]
        (fun reqs => Except.ok ((reqs.filterMap id).map
          (fun _ => { hits := [("d1", (3 : ℚ))] }))) 1 2)).Nodup :=
  retrieve_one_entry_per_query_id _ _ 1 2
    (by
      intro reqs _
      exact ⟨_, rfl, by simp⟩)

/-- Claim C4: under the msearch contract that every response carries at most
as many hits as its search body's `size` field requests (the field that
`generate_request` sets to the `size` argument), each per-query score map in
the result of `retrieve` has at most `size` entries. -/
theorem retrieve_result_size_le_limit (queries : List Query) (backend : Backend)
    (size bs : ℕ) (qid : String) (m : Dict ℚ)
    (hcontract : ∀ reqs resps, backend reqs = Except.ok resps →
      List.Forall₂ (fun (b : ESRequest) (r : ESResponse) => r.hits.length ≤ b.size)
        (reqs.filterMap id) resps)
    (hget : pyGet (retrieve queries backend size bs) qid = some m) :
    m.length ≤ size := by
  rw [retrieve_eq_chunks] at hget
  exact pyGet_foldl_batchStep_value_le backend size hcontract _ []
    (by intro k m' h; simp [pyGet] at h) qid m hget

theorem retrieve_result_size_le_limit_witness :
    ([] : Dict ℚ).length ≤ 1 :=
  retrieve_result_size_le_limit
    [{ _id := "q1", text := "a" }]
    (fun reqs => Except.ok ((reqs.filterMap id).map
      (fun _ => { hits := ([] : List (String × ℚ)) })))
    1 2 "q1" []
    (by
      intro reqs resps hok
      have hre : resps = (reqs.filterMap id).map
          (fun _ => ({ hits := ([] : List (String × ℚ)) } : ESResponse)) := by
        injection hok.symm
      rw [hre]
      exact forall2_map_self _ _ _ (by intro a _; simp))
    (by rfl)

/-- Claim C2: a failed msearch call for a batch is caught (the call returns an
empty batch dict instead of propagating), every query of that batch is then
absent from the returned mapping, every other batch's queries keep exactly the
value that their own batch call produced, and each batch's request list is
issued exactly once, in order (no retry). -/
theorem retrieve_failed_batch_policy (queries : List Query) (backend : Backend)
    (size bs : ℕ) (b : List Query) (q : Query) (e : String)
    (hnd : (queries.map Query._id).Nodup)
    (hb : b ∈ chunksOf bs queries) (hq : q ∈ b) :
    (backend (batchRequests size b) = Except.error e →
      retrieve_batch backend (b.map Query._id) (batchRequests size b) = [] ∧
      pyGet (retrieve queries backend size bs) q._id = none) ∧
    pyGet (retrieve queries backend size bs) q._id
      = pyGet (retrieve_batch backend (b.map Query._id) (batchRequests size b))
          q._id ∧
    retrieve_trace queries backend size bs
      = (chunksOf bs queries).map (batchRequests size) := by
  have hndj : (((chunksOf bs queries).map (fun c => c.map Query._id)).join).Nodup := by
    have hkey : (((chunksOf bs queries).map (fun c => c.map Query._id)).join)
        = queries.map Query._id := by
      show (List.map (List.map Query._id) (chunksOf bs queries)).flatten
          = List.map Query._id queries
      rw [← List.map_flatten]
      exact congrArg (List.map Query._id) (join_chunksOf bs queries)
    rw [hkey]
    exact hnd
  have hmain := pyGet_foldl_batchStep_of_mem backend size (chunksOf bs queries)
    [] b q hndj hb hq
  have hsecond : pyGet (retrieve queries backend size bs) q._id
      = pyGet (retrieve_batch backend (b.map Query._id) (batchRequests size b))
          q._id := by
    rw [retrieve_eq_chunks, hmain]
    have : pyGet ([] : Dict (Dict ℚ)) q._id = none := rfl
    rw [this, optOr_none_right]
  refine ⟨?_, hsecond, retrieve_trace_eq_chunks queries backend size bs⟩
  intro hfail
  have hempty := retrieve_batch_error backend (b.map Query._id)
    (batchRequests size b) e hfail
  refine ⟨hempty, ?_⟩
  rw [hsecond, hempty]
  rfl

theorem chunksOf_one_two :
    chunksOf 1 [({ _id := "q1", text := "a" } : Query),
      { _id := "q2", text := "b" }]
      = [[{ _id := "q1", text := "a" }], [{ _id := "q2", text := "b" }]] := by
  rw [chunksOf_pos 1 _ (by omega) (by simp)]
  simp only [List.take_succ_cons, List.take_zero, List.drop_succ_cons,
    List.drop_zero]
  rw [chunksOf_pos 1 _ (by omega) (by simp)]
  simp [chunksOf_nil]

theorem retrieve_failed_batch_policy_witness :
    pyGet (retrieve [{ _id := "q1", text := "a" }, { _id := "q2", text := "b" }]
      failing_backend 7 1) "q1" = none ∧
    pyGet (retrieve [{ _id := "q1", text := "a" }, { _id := "q2", text := "b" }]
      failing_backend 7 1) "q2"
      = pyGet (retrieve_batch failing_backend ["q2"]
          (batchRequests 7 [{ _id := "q2", text := "b" }])) "q2" := by
  constructor
  · exact ((retrieve_failed_batch_policy
      [{ _id := "q1", text := "a" }, { _id := "q2", text := "b" }]
      failing_backend 7 1 [{ _id := "q1", text := "a" }]
      { _id := "q1", text := "a" } "boom"
      (by decide)
      (by rw [chunksOf_one_two]; simp)
      (by simp)).1 (by rw [failing_backend, if_pos rfl])).2
  · exact (retrieve_failed_batch_policy
      [{ _id := "q1", text := "a" }, { _id := "q2", text := "b" }]
      failing_backend 7 1 [{ _id := "q2", text := "b" }]
      { _id := "q2", text := "b" } "boom"
      (by decide)
      (by rw [chunksOf_one_two]; simp)
      (by simp)).2.1

/-- Claim C7: because the query set is filtered upstream to the queries whose
id occurs in the qrels dict, every query id appearing as a key of a ranking
result — the first-stage result of `retrieve`, or the reranked result built
from it — has an entry in qrels. -/
theorem result_keys_resolvable_in_qrels (rawQueries : List Query)
    (qrels : Dict (Dict ℕ)) (backend : Backend) (size bs : ℕ)
    (model : String → String → ℚ) (qdict cdict : Dict String)
    (res : Dict (Dict ℚ)) :
    (∀ qid ∈ dictKeys (retrieve (filtered_queries rawQueries qrels)
        backend size bs), qid ∈ dictKeys qrels) ∧
    (results_after_reranking model qdict cdict
        (retrieve (filtered_queries rawQueries qrels) backend size bs)
          = Except.ok res →
      ∀ qid ∈ dictKeys res, qid ∈ dictKeys qrels) := by
  have hfirst : ∀ qid ∈ dictKeys (retrieve (filtered_queries rawQueries qrels)
      backend size bs), qid ∈ dictKeys qrels := by
    intro qid hqid
    rw [retrieve_eq_chunks] at hqid
    rcases mem_dictKeys_foldl_batchStep backend size _ [] qid hqid with
      habs | ⟨c, hc, hk⟩
    · simp [dictKeys] at habs
    · rcases List.mem_map.mp hk with ⟨q2, hq2, hqe⟩
      have hqj : q2 ∈ filtered_queries rawQueries qrels := by
        rw [← join_chunksOf bs (filtered_queries rawQueries qrels)]
        exact List.mem_join.mpr ⟨c, hc, hq2⟩
      rw [← hqe]
      exact mem_filtered_queries rawQueries qrels q2 hqj
  refine ⟨hfirst, ?_⟩
  intro hok qid hqid
  rcases rerank_loop_keys_subset model qdict cdict _ [] res hok qid hqid with
    habs | hin
  · simp [dictKeys] at habs
  · exact hfirst qid hin

theorem result_keys_resolvable_in_qrels_witness :
    "q1" ∈ dictKeys [("q1", [("d1", (1 : ℕ))])] :=
  (result_keys_resolvable_in_qrels
    [{ _id := "q1", text := "a" }, { _id := "qx", text := "b" }]
    [("q1", [("d1", (1 : ℕ))])]
    (fun reqs => Except.ok ((reqs.filterMap id).map
      (fun _ => { hits := [("d1", (3 : ℚ))] })))
    4 32 (fun _ _ => 1) [] [] []).1 "q1" (by decide)

/-- Claim C1: for every query, the reranked score map has exactly the same
document-id set as that query's first-stage BM25 score map (the result's key
list even equals the input's key list), and a query with an empty candidate
set is mapped to an empty score map. -/
theorem rerank_same_doc_id_sets (model : String → String → ℚ)
    (qdict cdict : Dict String) (bm res : Dict (Dict ℚ))
    (hnd : (dictKeys bm).Nodup)
    (hok : results_after_reranking model qdict cdict bm = Except.ok res) :
    dictKeys res = dictKeys bm ∧
    ∀ qid m bmq, pyGet res qid = some m → pyGet bm qid = some bmq →
      ((dictKeys m).toFinset = (dictKeys bmq).toFinset ∧ (bmq = [] → m = [])) := by
  rcases rerank_loop_spec model qdict cdict bm [] res hnd
    (by intro k _ hk; simp [dictKeys] at hk) hok with ⟨hkeys, hentries⟩
  constructor
  · simpa [dictKeys] using hkeys
  · intro qid m bmq hm hbm
    rcases hentries qid m hm with habs | ⟨bmq2, hbm2, hkeq, hemp⟩
    · exact absurd habs.symm (by simp [pyGet])
    · have : bmq2 = bmq := by
        rw [hbm2] at hbm
        injection hbm
      rw [← this]
      exact ⟨hkeq, hemp⟩

theorem rerank_same_doc_id_sets_witness :
    dictKeys [("q1", [("d1", (1 : ℚ))]), ("q2", ([] : Dict ℚ))]
        = dictKeys [("q1", [("d1", (2 : ℚ))]), ("q2", ([] : Dict ℚ))] ∧
    ((dictKeys [("d1", (1 : ℚ))]).toFinset
        = (dictKeys [("d1", (2 : ℚ))]).toFinset ∧
      ([("d1", (2 : ℚ))] = ([] : Dict ℚ) → [("d1", (1 : ℚ))] = ([] : Dict ℚ))) ∧
    ((dictKeys ([] : Dict ℚ)).toFinset = (dictKeys ([] : Dict ℚ)).toFinset ∧
      (([] : Dict ℚ) = ([] : Dict ℚ) → ([] : Dict ℚ) = ([] : Dict ℚ))) := by
  have happ := rerank_same_doc_id_sets (fun _ _ => 1)
    [("q1", "hello"), ("q2", "bye")] [("d1", "t u")]
    [("q1", [("d1", (2 : ℚ))]), ("q2", ([] : Dict ℚ))]
    [("q1", [("d1", (1 : ℚ))]), ("q2", ([] : Dict ℚ))]
    (by decide) (by rfl)
  exact ⟨happ.1,
    happ.2 "q1" [("d1", (1 : ℚ))] [("d1", (2 : ℚ))] (by rfl) (by rfl),
    happ.2 "q2" [] [] (by rfl) (by rfl)⟩

/-- Claim C10: every score the reranker records was produced by scoring, for
the entry's query text, the candidate document's title and text joined by a
single space — the value stored for the candidate in `corpus_dict`, not the
indexed fields. -/
theorem rerank_scores_title_space_text (model : String → String → ℚ)
    (corpus : List CorpusRow) (qdict : Dict String) (bm res : Dict (Dict ℚ))
    (qid did : String) (m : Dict ℚ) (s : ℚ)
    (hok : results_after_reranking model qdict (corpus_dict corpus) bm
      = Except.ok res)
    (hm : pyGet res qid = some m) (hmem : (did, s) ∈ m) :
    ∃ qt row, pyGet qdict qid = some qt ∧ row ∈ corpus ∧ row._id = did ∧
      s = model qt (row.title ++ " " ++ row.text) := by
  rcases rerank_loop_entry_origin model qdict (corpus_dict corpus) bm [] res hok
    qid m did s hm hmem with ⟨m0, hm0, _⟩ | ⟨qt, t, hqt, hcd, hs⟩
  · exact absurd hm0.symm (by simp [pyGet])
  · rcases pyGet_corpus_dict corpus did t hcd with ⟨row, hrow, hrid, hrt⟩
    exact ⟨qt, row, hqt, hrow, hrid, by rw [hs, hrt]⟩

theorem rerank_scores_title_space_text_witness :
    ∃ qt row, pyGet [("q1", "hello")] "q1" = some qt ∧
      row ∈ [({ _id := "d1", title := "t", text := "u" } : CorpusRow)] ∧
      row._id = "d1" ∧
      (3 : ℚ) = (fun (_ : String) (t : String) => ((t.length : ℚ))) qt
        (row.title ++ " " ++ row.text) :=
  rerank_scores_title_space_text
    (fun _ t => ((t.length : ℚ)))
    [{ _id := "d1", title := "t", text := "u" }]
    [("q1", "hello")]
    [("q1", [("d1", (2 : ℚ))])]
    [("q1", [("d1", (3 : ℚ))])]
    "q1" "d1" [("d1", (3 : ℚ))] 3
    (by rfl) (by rfl) (by simp)

/-- Claim C8: starting from a freshly created (empty) index, after
`index_corpus` has written one bulk `index` action per corpus row and the
synchronous refresh has run, the number of searchable documents equals the
number of corpus rows (one indexed document per row, the row ids being
pairwise distinct). -/
theorem index_corpus_doc_count (corpus : List CorpusRow) (idx : ESIndex)
    (h0 : idx.docs = []) (hnd : (corpus.map CorpusRow._id).Nodup) :
    doc_count (index_corpus corpus idx) = corpus.length := by
  show (pyUpdate idx.docs (get_iterable corpus)).length = corpus.length
  rw [h0]
  have hfst : (get_iterable corpus).map Prod.fst = corpus.map CorpusRow._id := by
    simp [get_iterable]
  rw [length_pyUpdate_fresh [] (get_iterable corpus)
    (by rw [hfst]; exact hnd)
    (by intro k _ hk; simp [dictKeys] at hk)]
  simp [get_iterable]

theorem index_corpus_doc_count_witness :
    doc_count (index_corpus
      [{ _id := "a", title := "t1", text := "x1" },
       { _id := "b", title := "t2", text := "x2" }]
      { docs := [], visible := [] }) = 2 :=
  index_corpus_doc_count
    [{ _id := "a", title := "t1", text := "x1" },
     { _id := "b", title := "t2", text := "x2" }]
    { docs := [], visible := [] } (by rfl) (by decide)

/-- Claim C5: for each metric, the reported value is the arithmetic mean of
the list the aggregation collects, that list is exactly the per-query scores
for the metric (unweighted, in query order), the reported mean is invariant
under any permutation of the queries, and the post-reranking aggregation is
the same function. -/
theorem eval_scores_mean_perm_invariant
    (epq1 epq2 : List (String × List (String × ℚ))) (m : String)
    (hperm : epq1.Perm epq2) :
    (pyGet (eval_scores epq1) m).getD [] = collect m epq1 ∧
    mean (collect m epq1) = (collect m epq1).sum / (collect m epq1).length ∧
    mean ((pyGet (eval_scores epq1) m).getD [])
      = mean ((pyGet (eval_scores epq2) m).getD []) ∧
    post_reranking_eval_scores epq1 = eval_scores epq1 := by
  refine ⟨pyGet_eval_scores_getD epq1 m, rfl, ?_, rfl⟩
  rw [pyGet_eval_scores_getD, pyGet_eval_scores_getD]
  exact mean_perm _ _ (collect_perm m _ _ hperm)

theorem eval_scores_mean_perm_invariant_witness :
    (pyGet (eval_scores [("q1", [("ndcg_cut_10", (1 : ℚ))]),
        ("q2", [("ndcg_cut_10", (0 : ℚ))])]) "ndcg_cut_10").getD []
      = collect "ndcg_cut_10" [("q1", [("ndcg_cut_10", (1 : ℚ))]),
          ("q2", [("ndcg_cut_10", (0 : ℚ))])] ∧
    mean (collect "ndcg_cut_10" [("q1", [("ndcg_cut_10", (1 : ℚ))]),
        ("q2", [("ndcg_cut_10", (0 : ℚ))])])
      = (collect "ndcg_cut_10" [("q1", [("ndcg_cut_10", (1 : ℚ))]),
          ("q2", [("ndcg_cut_10", (0 : ℚ))])]).sum /
        (collect "ndcg_cut_10" [("q1", [("ndcg_cut_10", (1 : ℚ))]),
          ("q2", [("ndcg_cut_10", (0 : ℚ))])]).length ∧
    mean ((pyGet (eval_scores [("q1", [("ndcg_cut_10", (1 : ℚ))]),
        ("q2", [("ndcg_cut_10", (0 : ℚ))])]) "ndcg_cut_10").getD [])
      = mean ((pyGet (eval_scores [("q2", [("ndcg_cut_10", (0 : ℚ))]),
          ("q1", [("ndcg_cut_10", (1 : ℚ))])]) "ndcg_cut_10").getD []) ∧
    post_reranking_eval_scores [("q1", [("ndcg_cut_10", (1 : ℚ))]),
        ("q2", [("ndcg_cut_10", (0 : ℚ))])]
      = eval_scores [("q1", [("ndcg_cut_10", (1 : ℚ))]),
          ("q2", [("ndcg_cut_10", (0 : ℚ))])] :=
  eval_scores_mean_perm_invariant
    [("q1", [("ndcg_cut_10", (1 : ℚ))]), ("q2", [("ndcg_cut_10", (0 : ℚ))])]
    [("q2", [("ndcg_cut_10", (0 : ℚ))]), ("q1", [("ndcg_cut_10", (1 : ℚ))])]
    "ndcg_cut_10"
    (List.Perm.swap _ _ _)

/-- Claim C6: on judgments mapping q1 to relevance 1 for d1 and the ranking
scoring d1 at 0.9 and d2 at 0.1 for q1, the evaluator's nDCG@10 value for q1
is 1.0, for every discount with a nonzero weight at the first rank (the real
metric's first-rank weight is 1/log2(2) = 1). -/
theorem evaluator_ndcg_example_is_one (disc : ℕ → ℚ) (hd : disc 0 ≠ 0) :
    pyGet (evaluate disc [("q1", [("d1", 1)])]
        [("q1", [("d1", 9/10), ("d2", 1/10)])]) "q1"
      = some [("ndcg_cut_10", 1)] := by
  have hsort : sort_by_score [("d1", (9:ℚ)/10), ("d2", (1:ℚ)/10)]
      = [("d1", (9:ℚ)/10), ("d2", (1:ℚ)/10)] := by
    rw [sort_by_score]
    norm_num [List.insertionSort, List.orderedInsert]
  have hndcg : ndcg_cut_10 disc [("d1", 1)] [("d1", 9/10), ("d2", 1/10)] = 1 := by
    rw [ndcg_cut_10]
    simp only [hsort]
    simp +decide [pyGet, List.insertionSort, List.orderedInsert, discSum]
    rw [if_neg hd]
    exact div_self hd
  have hev : evaluate disc [("q1", [("d1", 1)])]
      [("q1", [("d1", 9/10), ("d2", 1/10)])]
      = [("q1", [("ndcg_cut_10",
          ndcg_cut_10 disc [("d1", 1)] [("d1", 9/10), ("d2", 1/10)])])] := rfl
  rw [hev, hndcg, pyGet_cons]
  simp

theorem evaluator_ndcg_example_is_one_witness :
    pyGet (evaluate (fun _ => 1) [("q1", [("d1", 1)])]
        [("q1", [("d1", 9/10), ("d2", 1/10)])]) "q1"
      = some [("ndcg_cut_10", 1)] :=
  evaluator_ndcg_example_is_one (fun _ => 1) (by norm_num)
